import Mathlib

/-!
Verification of the sqlfluff-formatter text-region formatting pipeline.

Strings of the TypeScript source are modelled as `List Char`; each definition
below is a shallow embedding of the correspondingly named function of the
source.  Filesystem and process effects are modelled by explicit environment
records (existence predicates, exit codes, read results).
-/

/-- The JavaScript regex `\s` character class (also the character set removed
by `String.prototype.trim`): tab, line feed, vertical tab, form feed,
carriage return, space, and the Unicode space characters. -/
def isJsWs (c : Char) : Bool :=
  c == '\t' || c == '\n' || c == '\u000B' || c == '\u000C' || c == '\r' || c == ' ' ||
  c == '\u00A0' || c == '\u1680' ||
  (0x2000 ≤ c.toNat && c.toNat ≤ 0x200A) ||
  c == '\u2028' || c == '\u2029' || c == '\u202F' || c == '\u205F' ||
  c == '\u3000' || c == '\uFEFF'

/-- Model of JavaScript `String.prototype.trim`: drop leading and trailing
whitespace. -/
def trimL (l : List Char) : List Char :=
  ((l.dropWhile isJsWs).reverse.dropWhile isJsWs).reverse

/-- Model of `quotePath` (identical in both source variants): return the path
unchanged when it already starts and ends with a double quote; wrap it in
double quotes when it contains a space or a parenthesis; otherwise return it
unchanged.  `startsWith`/`endsWith` with a one-character argument are the
head/last tests. -/
def quotePath (p : List Char) : List Char :=
  if (p.head? == some '"') && (p.getLast? == some '"') then p
  else if p.contains ' ' || p.contains '(' || p.contains ')' then '"' :: p ++ ['"']
  else p

/-- Model of the index-based `some` predicate inside `ensureDialect`: an entry
equal to `--dialect` or `-d`, or an entry whose predecessor is one of them. -/
def hasDialectArg (args : List String) : Bool :=
  args.enum.any fun p =>
    p.2 == "--dialect" || p.2 == "-d" ||
    (decide (0 < p.1) &&
      (args[p.1 - 1]? == some "--dialect" || args[p.1 - 1]? == some "-d"))

/-- Model of `ensureDialect`: with an active config path the user args are
returned unchanged; otherwise `--dialect ansi` is appended unless a dialect
flag is already present. -/
def ensureDialect (args : List String) (configPath : Option String) : List String :=
  match configPath with
  | some _ => args
  | none =>
    if hasDialectArg args then args
    else args ++ ["--dialect", "ansi"]

/-- Model of `path.join` for the two-component calls of the source. -/
def pathJoin (a b : String) : String := a ++ "/" ++ b

/-- Model of `SQLFluffFormatter.resolveConfigPath`: workspace root first, then
the home directory, then the bundled extension default, else `null`.
`fsExists` models `fs.existsSync`. -/
def resolveConfigPath (workspaceFolders : List String) (homeDir extensionPath : String)
    (fsExists : String → Bool) : Option String :=
  let homeThen : Option String :=
    if fsExists (pathJoin homeDir ".sqlfluff") then some (pathJoin homeDir ".sqlfluff")
    else if fsExists (pathJoin extensionPath ".sqlfluff.default") then
      some (pathJoin extensionPath ".sqlfluff.default")
    else none
  match workspaceFolders with
  | w :: _ =>
    if fsExists (pathJoin w ".sqlfluff") then some (pathJoin w ".sqlfluff") else homeThen
  | [] => homeThen

/-- The ordered candidate list named by the spec for config resolution. -/
def configCandidates (workspaceFolders : List String) (homeDir extensionPath : String) :
    List String :=
  (match workspaceFolders with
   | w :: _ => [pathJoin w ".sqlfluff"]
   | [] => []) ++
  [pathJoin homeDir ".sqlfluff", pathJoin extensionPath ".sqlfluff.default"]

/-- Modelled from the spec: config resolution returns the first existing file
among the ordered candidates. -/
def specFirstExistingConfig (workspaceFolders : List String) (homeDir extensionPath : String)
    (fsExists : String → Bool) : Option String :=
  (configCandidates workspaceFolders homeDir extensionPath).find? fsExists

/-- Model of the standalone `findSqlfluffConfig` variant: returns `null`
immediately when no workspace folder is open; otherwise checks the document's
folder (falling back to the first workspace folder) and then the home
directory.  It never consults the bundled default. -/
def findSqlfluffConfig (workspaceFolders : List String) (docFolder : Option String)
    (homeDir : String) (fsExists : String → Bool) : Option String :=
  match workspaceFolders with
  | [] => none
  | w :: _ =>
    let folder := docFolder.getD w
    if fsExists (pathJoin folder ".sqlfluff") then some (pathJoin folder ".sqlfluff")
    else if fsExists (pathJoin homeDir ".sqlfluff") then some (pathJoin homeDir ".sqlfluff")
    else none

/-- Outcome of the direct-binary strategy's nested callbacks: either the
promise is resolved with file content, or control escalates to the
interpreter-module strategy. -/
inductive DirectOutcome where
  | resolved : List Char → DirectOutcome
  | escalated : DirectOutcome
deriving DecidableEq

/-- Environment of one direct-binary `fix` run: whether `spawn` threw
synchronously, whether the process emitted an `error` event, the close code,
and the result of reading the temp file afterwards (`none` models a read
that throws). -/
structure DirectEnv where
  spawnThrows : Bool
  procError : Bool
  closeCode : Int
  readResult : Option (List Char)

/-- Model of `SQLFluffFormatter.executeSqlfluffFormat`.  A synchronous spawn
failure or an `error` event unlinks the temp file and escalates.  The close
handler reads the temp file regardless of exit code; it resolves with the
content exactly when the content is non-empty and trims to non-empty, and
otherwise escalates.  The exit code is used only for diagnostics.  Every
branch of this function deletes its temp file before returning. -/
def executeSqlfluffFormat (e : DirectEnv) : DirectOutcome :=
  if e.spawnThrows then .escalated
  else if e.procError then .escalated
  else
    let formatted := e.readResult.getD []
    if !formatted.isEmpty && !(trimL formatted).isEmpty then .resolved formatted
    else .escalated

/-- Final outcome of the two-strategy pipeline. -/
inductive PipeOutcome where
  | ok : List Char → PipeOutcome
  | error : PipeOutcome
deriving DecidableEq

/-- Environment of one interpreter-module run (`python -m sqlfluff fix`). -/
structure PyEnv where
  writeOk : Bool
  spawnThrows : Bool
  procError : Bool
  closeCode : Int
  readResult : Option (List Char)

/-- Model of `SQLFluffFormatter.executePythonModuleFormat`, paired with
whether this strategy's own temp file still exists when the promise settles.
A failing `writeFileSync` creates no file and rejects.  A synchronous `spawn`
failure reaches the outer catch, which rejects WITHOUT unlinking the already
written temp file.  The `error` event and every branch of the close handler
unlink before settling; exit code 0 resolves with the file content (read
failure rejects), a nonzero exit resolves with the content when it trims to
non-empty and rejects otherwise. -/
def executePythonModuleFormat (e : PyEnv) : PipeOutcome × Bool :=
  if !e.writeOk then (.error, false)
  else if e.spawnThrows then (.error, true)
  else if e.procError then (.error, false)
  else if e.closeCode = 0 then
    match e.readResult with
    | some t => (.ok t, false)
    | none => (.error, false)
  else
    match e.readResult with
    | some t => if !(trimL t).isEmpty then (.ok t, false) else (.error, false)
    | none => (.error, false)

/-- Model of `formatSQL`'s strategy chain: the direct-binary strategy first,
escalating to the interpreter-module strategy.  The Boolean records whether a
temp artifact of the invocation survives; the direct strategy deletes its
file on every modelled path. -/
def formatSQLPipeline (d : DirectEnv) (p : PyEnv) : PipeOutcome × Bool :=
  match executeSqlfluffFormat d with
  | .resolved t => (.ok t, false)
  | .escalated => executePythonModuleFormat p

/-- Extend the first piece of a split result with one leading character. -/
def consFirst (c : Char) : List (List Char) → List (List Char)
  | [] => [[c]]
  | l :: ls => (c :: l) :: ls

/-- Model of JavaScript `text.split(/\r?\n/)`: split on `\n`, consuming a
`\r` only when it immediately precedes a `\n`. -/
def splitCRLF : List Char → List (List Char)
  | [] => [[]]
  | '\n' :: rest => [] :: splitCRLF rest
  | '\r' :: '\n' :: rest => [] :: splitCRLF rest
  | c :: rest => consFirst c (splitCRLF rest)

/-- Model of JavaScript `text.split('\n')`. -/
def splitLF : List Char → List (List Char)
  | [] => [[]]
  | '\n' :: rest => [] :: splitLF rest
  | c :: rest => consFirst c (splitLF rest)

/-- Model of JavaScript `lines.join('\n')`. -/
def joinLF : List (List Char) → List Char
  | [] => []
  | [l] => l
  | l :: ls => l ++ '\n' :: joinLF ls

/-- Model of `getIndentation`: the leading `\s*` run of the first
`\r?\n`-separated line. -/
def getIndentation (text : List Char) : List Char :=
  match splitCRLF text with
  | [] => []
  | l :: _ => l.takeWhile isJsWs

/-- Model of `removeFirstLineIndent`: a no-op for an empty indent; otherwise
split the text on `\r?\n`, strip the indent prefix from the first line when
present, and join the lines back with `\n`. -/
def removeFirstLineIndent (text indent : List Char) : List Char :=
  if indent.isEmpty then text
  else
    match splitCRLF text with
    | [] => text
    | l :: ls =>
      joinLF ((if indent.isPrefixOf l then l.drop indent.length else l) :: ls)

/-- Case-insensitive literal match (the effect of the `/i` flag on the
all-ASCII keywords of the source regexes): on success returns the matched
input text and the remaining input. -/
def matchCI : List Char → List Char → Option (List Char × List Char)
  | [], s => some ([], s)
  | _ :: _, [] => none
  | w :: ws, c :: cs =>
    if w.toLower == c.toLower then
      match matchCI ws cs with
      | some (t, r) => some (c :: t, r)
      | none => none
    else none

/-- Match a keyword alternative written as words separated by `\s+` (for
example `GROUP\s+BY`): each inter-word whitespace run must be non-empty and,
because every word starts with a letter, the greedy run is exact.  Returns
the matched input text (original case and original internal whitespace) and
the remaining input. -/
def matchWords : List (List Char) → List Char → Option (List Char × List Char)
  | [], s => some ([], s)
  | [w], s => matchCI w s
  | w :: w2 :: more, s =>
    match matchCI w s with
    | none => none
    | some (t1, r1) =>
      let ws1 := r1.takeWhile isJsWs
      if ws1.isEmpty then none
      else
        match matchWords (w2 :: more) (r1.drop ws1.length) with
        | none => none
        | some (t2, r2) => some (t1 ++ ws1 ++ t2, r2)

/-- Ordered alternation `(A|B|...)` followed by the pattern's trailing `\s+`:
try each alternative in source order; an alternative succeeds only when a
non-empty whitespace run follows (regex backtracking then moves to the next
alternative).  Returns the matched keyword text and the input after the
trailing whitespace run. -/
def tryAlts : List (List (List Char)) → List Char → Option (List Char × List Char)
  | [], _ => none
  | alt :: alts, s =>
    match matchWords alt s with
    | some (t, r) =>
      let wsT := r.takeWhile isJsWs
      if wsT.isEmpty then tryAlts alts s
      else some (t, r.drop wsT.length)
    | none => tryAlts alts s

/-- Fuelled scanner for the global replaces
`/\s+(KW...)\s+/gi -> '\n$1 '` of `preprocessSQL`: at each position a match
requires a non-empty leading whitespace run (maximal, since every
alternative starts with a letter) followed by an alternative and trailing
whitespace; the whole match is replaced by a newline, the matched keyword
text, and one space, and scanning resumes after the match. -/
def scanKwF (alts : List (List (List Char))) : Nat → List Char → List Char
  | 0, s => s
  | _ + 1, [] => []
  | f + 1, c :: rest =>
    if isJsWs c then
      let ws0 := (c :: rest).takeWhile isJsWs
      match tryAlts alts ((c :: rest).drop ws0.length) with
      | some (t, rest') => '\n' :: (t ++ ' ' :: scanKwF alts f rest')
      | none => c :: scanKwF alts f rest
    else c :: scanKwF alts f rest

/-- Fuelled scanner for `/\s+(ON)\s+\(/gi -> '\n$1 ('`. -/
def scanOnF : Nat → List Char → List Char
  | 0, s => s
  | _ + 1, [] => []
  | f + 1, c :: rest =>
    if isJsWs c then
      let ws0 := (c :: rest).takeWhile isJsWs
      match matchCI ['O', 'N'] ((c :: rest).drop ws0.length) with
      | some (t, r1) =>
        let ws1 := r1.takeWhile isJsWs
        if ws1.isEmpty then c :: scanOnF f rest
        else
          match r1.drop ws1.length with
          | '(' :: r2 => '\n' :: (t ++ ' ' :: '(' :: scanOnF f r2)
          | _ => c :: scanOnF f rest
      | none => c :: scanOnF f rest
    else c :: scanOnF f rest

/-- Fuelled scanner for `/,\s+/g -> ',\n  '`: a comma followed by a
non-empty whitespace run is replaced by a comma, a newline and two spaces. -/
def step4F : Nat → List Char → List Char
  | 0, s => s
  | _ + 1, [] => []
  | f + 1, c :: rest =>
    if c = ',' then
      let ws := rest.takeWhile isJsWs
      if ws.isEmpty then c :: step4F f rest
      else ',' :: '\n' :: ' ' :: ' ' :: step4F f (rest.drop ws.length)
    else c :: step4F f rest

/-- Index of the last `\n` in a list, if any. -/
def lastLFIdx : List Char → Option Nat
  | [] => none
  | '\n' :: rest =>
    match lastLFIdx rest with
    | some k => some (k + 1)
    | none => some 0
  | _ :: rest => (lastLFIdx rest).map (· + 1)

/-- Fuelled scanner for `/\n\s+\n/g -> '\n'`: at a `\n`, with `M` the maximal
whitespace run that follows, the backtracking greedy `\s+` matches up to the
last `\n` of `M` provided that `\n` is not the first character of `M`; the
whole match collapses to a single newline. -/
def step5F : Nat → List Char → List Char
  | 0, s => s
  | _ + 1, [] => []
  | f + 1, c :: rest =>
    if c = '\n' then
      let M := rest.takeWhile isJsWs
      match lastLFIdx M with
      | some j => if 1 ≤ j then '\n' :: step5F f (rest.drop (j + 1)) else c :: step5F f rest
      | none => c :: step5F f rest
    else c :: step5F f rest

/-- Character list of a keyword literal. -/
def kw (s : String) : List Char := s.toList

/-- The main-clause alternatives of the first `preprocessSQL` regex, in
source order. -/
def mainKwAlts : List (List (List Char)) :=
  [[kw "SELECT"], [kw "FROM"], [kw "WHERE"], [kw "GROUP", kw "BY"], [kw "HAVING"],
   [kw "ORDER", kw "BY"], [kw "LIMIT"], [kw "UNION"], [kw "UNION", kw "ALL"],
   [kw "EXCEPT"], [kw "INTERSECT"], [kw "WITH"]]

/-- The JOIN-family alternatives of the second `preprocessSQL` regex, in
source order. -/
def joinKwAlts : List (List (List Char)) :=
  [[kw "INNER", kw "JOIN"], [kw "LEFT", kw "JOIN"], [kw "RIGHT", kw "JOIN"],
   [kw "FULL", kw "JOIN"], [kw "CROSS", kw "JOIN"],
   [kw "LEFT", kw "OUTER", kw "JOIN"], [kw "RIGHT", kw "OUTER", kw "JOIN"],
   [kw "FULL", kw "OUTER", kw "JOIN"]]

/-- Model of `SQLFluffFormatter.preprocessSQL`: identity when the input has
more than 2 `\n`-separated lines; otherwise the ordered rewrites of the
source (clause keywords, JOIN keywords, `ON (`, newline after comma-plus-
whitespace, blank-run collapse) followed by split on `\n`, per-line trim,
dropping empty lines, and rejoining with `\n`. -/
def preprocessSQL (sql : List Char) : List Char :=
  if (splitLF sql).length > 2 then sql
  else
    let s1 := scanKwF mainKwAlts sql.length sql
    let s2 := scanKwF joinKwAlts s1.length s1
    let s3 := scanOnF s2.length s2
    let s4 := step4F s3.length s3
    let s5 := step5F s4.length s4
    joinLF (((splitLF s5).map trimL).filter (fun l => !l.isEmpty))

/-- The comma law the preprocessor actually guarantees: every comma is
immediately followed by a newline or by a non-whitespace character, or ends
the text. -/
def commaOK : List Char → Bool
  | [] => true
  | [_] => true
  | c :: d :: rest =>
    if c = ',' then (d == '\n' || !isJsWs d) && commaOK (d :: rest)
    else commaOK (d :: rest)

/-- The comma law as claimed: every comma is immediately followed by a
newline. -/
def commaAlwaysLF : List Char → Bool
  | ',' :: c :: rest => (c == '\n') && commaAlwaysLF (c :: rest)
  | [','] => false
  | _ :: rest => commaAlwaysLF rest
  | [] => true

/-! ## Helper lemmas -/

theorem hasDialectArg_iff (args : List String) :
    hasDialectArg args = true ↔ "--dialect" ∈ args ∨ "-d" ∈ args := by
  unfold hasDialectArg
  rw [List.any_eq_true]
  constructor
  · rintro ⟨⟨i, a⟩, hmem, hf⟩
    simp only [Bool.or_eq_true, beq_iff_eq, Bool.and_eq_true, decide_eq_true_eq] at hf
    have hga : args[i]? = some a := by
      simpa using (List.mk_mem_enum_iff_getElem?).mp hmem
    rcases hf with (h | h) | ⟨-, h | h⟩
    · exact Or.inl (h ▸ List.getElem?_mem hga)
    · exact Or.inr (h ▸ List.getElem?_mem hga)
    · exact Or.inl (List.getElem?_mem h)
    · exact Or.inr (List.getElem?_mem h)
  · intro h
    rcases h with h | h <;>
      obtain ⟨n, hn⟩ := List.mem_iff_getElem?.mp h
    · exact ⟨(n, "--dialect"), (List.mk_mem_enum_iff_getElem?).mpr (by simpa using hn),
        by simp⟩
    · exact ⟨(n, "-d"), (List.mk_mem_enum_iff_getElem?).mpr (by simpa using hn),
        by simp⟩

/-! ## Claim theorems -/

/-- C10: `quotePath` is idempotent, and it wraps its argument in double
quotes exactly when the argument contains a space or a parenthesis and is
not already enclosed in double quotes; hence a path is never double-quoted
twice. -/
theorem quotePath_idempotent_wrap_iff (p : List Char) :
    quotePath (quotePath p) = quotePath p ∧
    (quotePath p = '"' :: p ++ ['"'] ↔
      ((p.contains ' ' || p.contains '(' || p.contains ')') = true ∧
       ((p.head? == some '"') && (p.getLast? == some '"')) = false)) := by
  have hlen : ∀ q : List Char, q ≠ '"' :: q ++ ['"'] := by
    intro q h
    have h2 := congrArg List.length h
    simp at h2
    omega
  by_cases hq : ((p.head? == some '"') && (p.getLast? == some '"')) = true
  · have h1 : quotePath p = p := by simp [quotePath, hq]
    refine ⟨by rw [h1, h1], ?_⟩
    rw [h1]
    constructor
    · intro h
      exact absurd h (hlen p)
    · rintro ⟨-, h2⟩
      rw [hq] at h2
      cases h2
  · have hq' : ((p.head? == some '"') && (p.getLast? == some '"')) = false := by
      simpa using hq
    by_cases hs : (p.contains ' ' || p.contains '(' || p.contains ')') = true
    · have h1 : quotePath p = '"' :: p ++ ['"'] := by
        simp only [quotePath, hq', Bool.false_eq_true, if_false, hs, if_true]
      have hhead : ('"' :: p ++ ['"']).head? = some '"' := rfl
      have hlast : ('"' :: p ++ ['"']).getLast? = some '"' := by
        show (('"' :: p) ++ ['"']).getLast? = some '"'
        exact List.getLast?_concat _
      have hcond : ((('"' :: p ++ ['"']).head? == some '"') &&
          (('"' :: p ++ ['"']).getLast? == some '"')) = true := by
        rw [hhead, hlast]
        rfl
      refine ⟨?_, ⟨fun _ => ⟨hs, hq'⟩, fun _ => h1⟩⟩
      rw [h1]
      simp only [quotePath, hcond, if_true]
    · have hs' : (p.contains ' ' || p.contains '(' || p.contains ')') = false := by
        simpa using hs
      have h1 : quotePath p = p := by
        simp only [quotePath, hq', Bool.false_eq_true, if_false, hs', if_false]
      refine ⟨by rw [h1, h1], ?_⟩
      rw [h1]
      constructor
      · intro h
        exact absurd h (hlen p)
      · rintro ⟨h2, -⟩
        rw [hs'] at h2
        cases h2

/-- C4 (amended): the default pair `--dialect ansi` is appended to the built
argument list exactly when no config path was resolved and no `--dialect` or
`-d` token is present in the user-supplied arguments; the user-supplied
arguments are always an unmodified prefix of the result. -/
theorem ensureDialect_spec (args : List String) (cfg : Option String) :
    (ensureDialect args cfg = args ++ ["--dialect", "ansi"] ↔
      (cfg = none ∧ ¬("--dialect" ∈ args ∨ "-d" ∈ args))) ∧
    args <+: ensureDialect args cfg := by
  have hne : args ≠ args ++ ["--dialect", "ansi"] := by
    intro h
    have hl := congrArg List.length h
    simp at hl
  match cfg with
  | some c =>
    refine ⟨?_, by simp [ensureDialect]⟩
    simp only [ensureDialect]
    constructor
    · intro h
      exact absurd h hne
    · rintro ⟨h, -⟩
      exact Option.noConfusion h
  | none =>
    by_cases hd : hasDialectArg args = true
    · have h1 : ensureDialect args none = args := by simp [ensureDialect, hd]
      refine ⟨?_, by simp [h1]⟩
      rw [h1]
      constructor
      · intro h
        exact absurd h hne
      · rintro ⟨-, h⟩
        exact absurd ((hasDialectArg_iff args).mp hd) h
    · have hd' : hasDialectArg args = false := by simpa using hd
      have h1 : ensureDialect args none = args ++ ["--dialect", "ansi"] := by
        simp [ensureDialect, hd']
      refine ⟨?_, ⟨["--dialect", "ansi"], h1.symm⟩⟩
      rw [h1]
      refine ⟨fun _ => ⟨rfl, fun h => ?_⟩, fun _ => rfl⟩
      rw [(hasDialectArg_iff args).mpr h] at hd'
      cases hd'

/-- C4 counterexample: when the user-supplied arguments already contain the
pair `--dialect ansi` and no config path is active, the built list contains
`--dialect ansi` although a dialect token is present in the user args, so
the claimed if-and-only-if containment condition is false. -/
theorem ensureDialect_claim_cex :
    ensureDialect ["--dialect", "ansi"] none = ["--dialect", "ansi"] ∧
    ("--dialect" ∈ (ensureDialect ["--dialect", "ansi"] none)) ∧
    ("ansi" ∈ (ensureDialect ["--dialect", "ansi"] none)) ∧
    ("--dialect" ∈ (["--dialect", "ansi"] : List String)) := by
  refine ⟨by decide, ?_, ?_, by decide⟩ <;> decide

/-- C5 (amended, for the class-based resolver): `resolveConfigPath` returns
the first existing file among, in order, the workspace-root `.sqlfluff`
(when a workspace folder exists), the home `.sqlfluff`, and the bundled
`.sqlfluff.default`, and returns `none` exactly when none of the candidates
exist. -/
theorem resolveConfigPath_spec (wf : List String) (home ext : String)
    (ex : String → Bool) :
    resolveConfigPath wf home ext ex = specFirstExistingConfig wf home ext ex ∧
    (resolveConfigPath wf home ext ex = none ↔
      ∀ c ∈ configCandidates wf home ext, ex c = false) := by
  have hfind : resolveConfigPath wf home ext ex = specFirstExistingConfig wf home ext ex := by
    unfold resolveConfigPath specFirstExistingConfig configCandidates
    match wf with
    | [] =>
      simp only [List.nil_append, List.find?]
      by_cases h1 : ex (pathJoin home ".sqlfluff") <;>
        by_cases h2 : ex (pathJoin ext ".sqlfluff.default") <;>
          simp [h1, h2]
    | w :: ws =>
      simp only [List.cons_append, List.nil_append, List.find?]
      by_cases h0 : ex (pathJoin w ".sqlfluff") <;>
        by_cases h1 : ex (pathJoin home ".sqlfluff") <;>
          by_cases h2 : ex (pathJoin ext ".sqlfluff.default") <;>
            simp [h0, h1, h2]
  refine ⟨hfind, ?_⟩
  rw [hfind]
  unfold specFirstExistingConfig
  rw [List.find?_eq_none]
  constructor
  · intro h c hc
    simpa using h c hc
  · intro h c hc
    simp [h c hc]

/-- C5 counterexample: the standalone `findSqlfluffConfig` variant returns
`null` when no workspace folder is open even though the home `.sqlfluff`
exists, contradicting the claim that resolution returns `null` exactly when
no candidate exists. -/
theorem findSqlfluffConfig_claim_cex :
    findSqlfluffConfig [] none "home" (fun s => s == pathJoin "home" ".sqlfluff") = none ∧
    (fun s => s == pathJoin "home" ".sqlfluff") (pathJoin "home" ".sqlfluff") = true := by
  exact ⟨rfl, by simp⟩

/-- C8: when the input spans more than 2 `\n`-separated lines,
`preprocessSQL` is the identity. -/
theorem preprocessSQL_multiline_identity (sql : List Char)
    (h : 2 < (splitLF sql).length) :
    preprocessSQL sql = sql := by
  unfold preprocessSQL
  rw [if_pos h]

/-- C8 witness: a concrete 3-line input is returned unchanged. -/
theorem preprocessSQL_multiline_identity_witness :
    2 < (splitLF ("a\nb\nc".toList)).length ∧
    preprocessSQL ("a\nb\nc".toList) = "a\nb\nc".toList :=
  ⟨by decide, preprocessSQL_multiline_identity _ (by decide)⟩

/-- C1 (amended): a direct-binary `fix` run that terminates with exit code 1
and leaves temp-file content that is non-empty after trimming whitespace is
resolved with that content: the pipeline returns it, no escalation to the
interpreter-module strategy occurs (the result is independent of that
strategy's environment), and no error is surfaced. -/
theorem exit1_nonblank_soft_success (d : DirectEnv) (p : PyEnv) (t : List Char)
    (h1 : d.spawnThrows = false) (h2 : d.procError = false) (h3 : d.closeCode = 1)
    (h4 : d.readResult = some t) (h5 : trimL t ≠ []) :
    executeSqlfluffFormat d = .resolved t ∧ formatSQLPipeline d p = (.ok t, false) := by
  have ht : t ≠ [] := by
    intro h
    exact h5 (by simp [h, trimL])
  have hdir : executeSqlfluffFormat d = .resolved t := by
    simp [executeSqlfluffFormat, h1, h2, h4, ht, h5]
  exact ⟨hdir, by simp [formatSQLPipeline, hdir]⟩

/-- C1 witness: a concrete exit-code-1 run with content `SELECT 1` resolves
with that content regardless of the fallback environment. -/
theorem exit1_nonblank_soft_success_witness :
    executeSqlfluffFormat ⟨false, false, 1, some ("SELECT 1".toList)⟩ =
      .resolved ("SELECT 1".toList) ∧
    formatSQLPipeline ⟨false, false, 1, some ("SELECT 1".toList)⟩
      ⟨true, true, false, 0, none⟩ = (.ok ("SELECT 1".toList), false) :=
  exit1_nonblank_soft_success _ _ _ rfl rfl rfl rfl (by decide)

/-- C1 counterexample: a direct-binary run with exit code 1 whose temp file
holds the non-empty but whitespace-only content `"\n"` escalates instead of
returning that content, refuting the claim for non-empty content. -/
theorem exit1_nonempty_ws_escalates :
    executeSqlfluffFormat ⟨false, false, 1, some ['\n']⟩ = .escalated ∧
    (['\n'] : List Char) ≠ [] := by
  exact ⟨rfl, by decide⟩

/-- C2: a direct-binary `fix` run that terminates with a nonzero exit code
and whose temp file is empty or unreadable escalates: the pipeline's result
is exactly the interpreter-module strategy's result, so no result is
returned from the direct strategy and no terminal failure occurs while the
further strategy remains. -/
theorem nonzero_empty_escalates (d : DirectEnv) (p : PyEnv)
    (h1 : d.spawnThrows = false) (h2 : d.procError = false) (h3 : d.closeCode ≠ 0)
    (h4 : d.readResult = none ∨ d.readResult = some []) :
    executeSqlfluffFormat d = .escalated ∧
    formatSQLPipeline d p = executePythonModuleFormat p := by
  have hdir : executeSqlfluffFormat d = .escalated := by
    rcases h4 with h4 | h4 <;> simp [executeSqlfluffFormat, h1, h2, h4, trimL]
  exact ⟨hdir, by simp [formatSQLPipeline, hdir]⟩

/-- C2 witness: a concrete exit-code-2 run with an unreadable temp file
hands the invocation to the interpreter-module strategy. -/
theorem nonzero_empty_escalates_witness :
    executeSqlfluffFormat ⟨false, false, 2, none⟩ = .escalated ∧
    formatSQLPipeline ⟨false, false, 2, none⟩ ⟨true, false, false, 0, some ['x']⟩ =
      executePythonModuleFormat ⟨true, false, false, 0, some ['x']⟩ :=
  nonzero_empty_escalates _ _ rfl rfl (by decide) (Or.inl rfl)

/-- C3 (code bug): on the exit path of `executePythonModuleFormat` in which
`spawn` throws synchronously after the temp file was written, the outer
catch rejects without deleting the temp file, so a temp artifact of the
invocation survives the operation, contradicting the cleanup invariant. -/
theorem pymodule_spawn_throw_leaks_temp_file :
    formatSQLPipeline ⟨false, false, 2, some []⟩ ⟨true, true, false, 0, none⟩ =
      (.error, true) := rfl

/-- Helper: the head of a `dropWhile` residue fails the predicate. -/
theorem dropWhile_head_false (p : Char → Bool) :
    ∀ (l : List Char) (c : Char) (t : List Char), l.dropWhile p = c :: t → p c = false := by
  intro l c t h
  have := List.head?_dropWhile_not p l
  rw [h] at this
  exact this

/-- Helper: the first `\r?\n`-separated line of a text is a prefix of it,
followed (when anything follows) by a `\n` or `\r\n` separator. -/
theorem splitCRLF_decomp (s : List Char) :
    ∃ l ls, splitCRLF s = l :: ls ∧
      (s = l ∨ (∃ r, s = l ++ '\n' :: r) ∨ (∃ r, s = l ++ '\r' :: '\n' :: r)) := by
  induction s using splitCRLF.induct with
  | case1 => exact ⟨[], [], rfl, Or.inl rfl⟩
  | case2 rest ih => exact ⟨[], splitCRLF rest, rfl, Or.inr (Or.inl ⟨rest, rfl⟩)⟩
  | case3 rest ih => exact ⟨[], splitCRLF rest, rfl, Or.inr (Or.inr ⟨rest, rfl⟩)⟩
  | case4 c rest h1 h2 ih =>
    obtain ⟨l, ls, hsp, hcases⟩ := ih
    have hstep : splitCRLF (c :: rest) = consFirst c (splitCRLF rest) := by
      simp [splitCRLF, h1, h2]
    refine ⟨c :: l, ls, ?_, ?_⟩
    · rw [hstep, hsp, consFirst]
    · rcases hcases with rfl | ⟨r, rfl⟩ | ⟨r, rfl⟩
      · exact Or.inl rfl
      · exact Or.inr (Or.inl ⟨r, rfl⟩)
      · exact Or.inr (Or.inr ⟨r, rfl⟩)

/-- C7 (amended): `getIndentation` returns the leading whitespace run of the
first line in the sense of the JS `\s` class (which is wider than space and
tab): the result consists of `\s` characters only, is a prefix of the input,
and the character following it (if any) is neither a space nor a tab. -/
theorem getIndentation_spec (L : List Char) :
    (getIndentation L).all isJsWs = true ∧
    getIndentation L <+: L ∧
    ∀ c t, L = getIndentation L ++ c :: t → c ≠ ' ' ∧ c ≠ '\t' := by
  obtain ⟨l, ls, hsp, hcases⟩ := splitCRLF_decomp L
  have hgi : getIndentation L = l.takeWhile isJsWs := by
    unfold getIndentation
    rw [hsp]
  have htw : l.takeWhile isJsWs ++ l.dropWhile isJsWs = l :=
    List.takeWhile_append_dropWhile ..
  have hnotws : ∀ c : Char, isJsWs c = false → c ≠ ' ' ∧ c ≠ '\t' := by
    intro c hc
    constructor <;> rintro rfl <;> simp [isJsWs] at hc
  refine ⟨?_, ?_, ?_⟩
  · rw [hgi, List.all_eq_true]
    intro x hx
    exact List.mem_takeWhile_imp hx
  · rw [hgi]
    have h1 : l.takeWhile isJsWs <+: l := List.takeWhile_prefix _
    rcases hcases with rfl | ⟨r, rfl⟩ | ⟨r, rfl⟩
    · exact h1
    · exact h1.trans ⟨'\n' :: r, rfl⟩
    · exact h1.trans ⟨'\r' :: '\n' :: r, rfl⟩
  · intro c t hct
    rw [hgi] at hct
    rcases hcases with hL | ⟨r, hL⟩ | ⟨r, hL⟩
    · have h2 : l.takeWhile isJsWs ++ l.dropWhile isJsWs =
          l.takeWhile isJsWs ++ c :: t :=
        htw.trans (hL ▸ hct)
      have hdw : l.dropWhile isJsWs = c :: t := List.append_cancel_left h2
      exact hnotws c (dropWhile_head_false _ _ _ _ hdw)
    · have h2 : l.takeWhile isJsWs ++ (l.dropWhile isJsWs ++ '\n' :: r) =
          l.takeWhile isJsWs ++ c :: t := by
        calc l.takeWhile isJsWs ++ (l.dropWhile isJsWs ++ '\n' :: r)
            = (l.takeWhile isJsWs ++ l.dropWhile isJsWs) ++ '\n' :: r :=
              (List.append_assoc ..).symm
          _ = l ++ '\n' :: r := by rw [htw]
          _ = L := hL.symm
          _ = l.takeWhile isJsWs ++ c :: t := hct
      have h3 : l.dropWhile isJsWs ++ '\n' :: r = c :: t := List.append_cancel_left h2
      cases hdwe : l.dropWhile isJsWs with
      | nil =>
        rw [hdwe] at h3
        simp only [List.nil_append] at h3
        injection h3 with h4 h5
        exact h4 ▸ ⟨by decide, by decide⟩
      | cons d dt =>
        rw [hdwe] at h3
        injection h3 with h4 h5
        exact h4 ▸ hnotws d (dropWhile_head_false _ _ _ _ hdwe)
    · have h2 : l.takeWhile isJsWs ++ (l.dropWhile isJsWs ++ '\r' :: '\n' :: r) =
          l.takeWhile isJsWs ++ c :: t := by
        calc l.takeWhile isJsWs ++ (l.dropWhile isJsWs ++ '\r' :: '\n' :: r)
            = (l.takeWhile isJsWs ++ l.dropWhile isJsWs) ++ '\r' :: '\n' :: r :=
              (List.append_assoc ..).symm
          _ = l ++ '\r' :: '\n' :: r := by rw [htw]
          _ = L := hL.symm
          _ = l.takeWhile isJsWs ++ c :: t := hct
      have h3 : l.dropWhile isJsWs ++ '\r' :: '\n' :: r = c :: t :=
        List.append_cancel_left h2
      cases hdwe : l.dropWhile isJsWs with
      | nil =>
        rw [hdwe] at h3
        simp only [List.nil_append] at h3
        injection h3 with h4 h5
        exact h4 ▸ ⟨by decide, by decide⟩
      | cons d dt =>
        rw [hdwe] at h3
        injection h3 with h4 h5
        exact h4 ▸ hnotws d (dropWhile_head_false _ _ _ _ hdwe)

/-- C7 witness: on the concrete line `"  x"` the captured indent is `"  "`,
made of whitespace, a prefix of the line, and followed by `'x'`, which is
neither a space nor a tab. -/
theorem getIndentation_spec_witness :
    (getIndentation ("  x".toList)).all isJsWs = true ∧
    getIndentation ("  x".toList) <+: ("  x".toList) ∧
    ('x' ≠ ' ' ∧ 'x' ≠ '\t') := by
  have h := getIndentation_spec ("  x".toList)
  exact ⟨h.1, h.2.1, h.2.2 'x' [] (by decide)⟩

/-- C7 counterexample: on a line starting with a form feed (`\s` but not
space or tab) the captured indent is the form feed, so the result is not
made of spaces and tabs only. -/
theorem getIndentation_claim_cex :
    getIndentation ("\u000Cx".toList) = ['\u000C'] ∧
    (['\u000C'] : List Char).all (fun c => c == ' ' || c == '\t') = false := by
  exact ⟨by decide, by decide⟩

/-- C6 (amended): for a non-empty indent that prefixes the first line,
`removeFirstLineIndent` removes exactly that prefix from the first line and
keeps every other line's characters unchanged, but rejoins the lines with
`\n` (so `\r\n` terminators are normalized); with an empty indent it is the
identity. -/
theorem removeFirstLineIndent_spec (T I l0 : List Char) (rest : List (List Char))
    (hI : I ≠ []) (hsplit : splitCRLF T = l0 :: rest) (hpre : I.isPrefixOf l0 = true) :
    removeFirstLineIndent T I = joinLF (l0.drop I.length :: rest) ∧
    I ++ l0.drop I.length = l0 ∧
    removeFirstLineIndent T [] = T := by
  have hIe : I.isEmpty = false := by simpa using hI
  obtain ⟨t, rfl⟩ := List.isPrefixOf_iff_prefix.mp hpre
  refine ⟨?_, ?_, by simp [removeFirstLineIndent]⟩
  · unfold removeFirstLineIndent
    simp only [hIe, Bool.false_eq_true, if_false, hsplit, hpre, if_true]
  · rw [List.drop_left]

/-- C6 witness: concrete instance with first line `"  a"`, indent `"  "` and
second line `"b"`. -/
theorem removeFirstLineIndent_spec_witness :
    removeFirstLineIndent ("  a\r\nb".toList) ("  ".toList) =
      joinLF (("  a".toList).drop (("  ".toList).length) :: ["b".toList]) ∧
    ("  ".toList) ++ ("  a".toList).drop (("  ".toList).length) = "  a".toList ∧
    removeFirstLineIndent ("  a\r\nb".toList) [] = "  a\r\nb".toList :=
  removeFirstLineIndent_spec _ _ _ _ (by decide) (by decide) (by decide)

/-- C6 counterexample: with text `"  a\r\nb"` and indent `"  "` the result is
`"a\nb"`, not `"a\r\nb"`: the second line's `\r\n` terminator was not left
untouched but normalized to `\n`. -/
theorem removeFirstLineIndent_claim_cex :
    removeFirstLineIndent ("  a\r\nb".toList) ("  ".toList) = "a\nb".toList ∧
    "a\nb".toList ≠ "a\r\nb".toList := by
  exact ⟨by decide, by decide⟩

/-- Helper: `commaOK` passes to the tail. -/
theorem commaOK_cons {a : Char} {l : List Char} (h : commaOK (a :: l) = true) :
    commaOK l = true := by
  cases l with
  | nil => rfl
  | cons d rest =>
    rw [commaOK] at h
    by_cases ha : a = ','
    · rw [if_pos ha] at h
      exact (Bool.and_eq_true_iff.mp h).2
    · rw [if_neg ha] at h
      exact h

/-- Helper: a non-comma head preserves `commaOK`. -/
theorem commaOK_cons_of_ne (c : Char) (l : List Char) (hc : c ≠ ',')
    (h : commaOK l = true) : commaOK (c :: l) = true := by
  cases l with
  | nil => rfl
  | cons d r =>
    rw [commaOK, if_neg hc]
    exact h

/-- Helper: `commaOK` is closed under `drop`. -/
theorem commaOK_drop (l : List Char) (k : Nat) (h : commaOK l = true) :
    commaOK (l.drop k) = true := by
  induction k generalizing l with
  | zero => simpa using h
  | succ n ih =>
    cases l with
    | nil => simpa using h
    | cons a t => exact ih t (commaOK_cons h)

/-- Helper: `commaOK` is closed under `dropWhile`. -/
theorem commaOK_dropWhile (p : Char → Bool) (l : List Char) (h : commaOK l = true) :
    commaOK (l.dropWhile p) = true := by
  induction l with
  | nil => simpa using h
  | cons a t ih =>
    rw [List.dropWhile_cons]
    split
    · exact ih (commaOK_cons h)
    · exact h

/-- Helper: `commaOK` holds of a prefix: cutting a list can only turn a
comma's successor into the end of the text. -/
theorem commaOK_of_append (l₁ : List Char) :
    ∀ t : List Char, commaOK (l₁ ++ t) = true → commaOK l₁ = true := by
  induction l₁ with
  | nil => intro t _; rfl
  | cons a l' ih =>
    intro t h
    cases l' with
    | nil => rfl
    | cons d r =>
      simp only [List.cons_append] at h
      rw [commaOK] at h ⊢
      by_cases ha : a = ','
      · rw [if_pos ha] at h ⊢
        obtain ⟨h1, h2⟩ := Bool.and_eq_true_iff.mp h
        refine Bool.and_eq_true_iff.mpr ⟨h1, ?_⟩
        have h3 := ih t h2
        simpa using h3
      · rw [if_neg ha] at h ⊢
        have h3 := ih t h
        simpa using h3

/-- Helper: `commaOK` is closed under trimming. -/
theorem commaOK_trimL (l : List Char) (h : commaOK l = true) :
    commaOK (trimL l) = true := by
  have h1 : commaOK (l.dropWhile isJsWs) = true := commaOK_dropWhile _ _ h
  have h2 : trimL l <+: l.dropWhile isJsWs := by
    have h3 : (l.dropWhile isJsWs).reverse.dropWhile isJsWs <:+
        (l.dropWhile isJsWs).reverse := List.dropWhile_suffix _
    have h4 := List.reverse_prefix.mpr h3
    rw [List.reverse_reverse] at h4
    exact h4
  obtain ⟨t, ht⟩ := h2
  exact commaOK_of_append _ t (by rw [ht]; exact h1)

/-- Helper: `splitLF` never returns the empty list of lines. -/
theorem splitLF_ne_nil (s : List Char) : splitLF s ≠ [] := by
  induction s using splitLF.induct with
  | case1 => simp [splitLF]
  | case2 rest ih => simp [splitLF]
  | case3 c rest h1 ih =>
    have hstep : splitLF (c :: rest) = consFirst c (splitLF rest) := by
      simp [splitLF, h1]
    rw [hstep]
    cases hsp : splitLF rest with
    | nil => simp [consFirst]
    | cons l ls => simp [consFirst]

/-- Helper: every line of a `commaOK` text is `commaOK` (inside a line a
comma's newline successor becomes the line end). -/
theorem commaOK_splitLF : ∀ s : List Char, commaOK s = true →
    ∀ l ∈ splitLF s, commaOK l = true := by
  intro s
  induction s using splitLF.induct with
  | case1 =>
    intro h l hl
    rw [show splitLF [] = [[]] from rfl] at hl
    rcases List.mem_cons.mp hl with rfl | hl
    · rfl
    · cases hl
  | case2 rest ih =>
    intro h l hl
    rw [show splitLF ('\n' :: rest) = [] :: splitLF rest from rfl] at hl
    rcases List.mem_cons.mp hl with rfl | hl
    · rfl
    · exact ih (commaOK_cons h) l hl
  | case3 c rest h1 ih =>
    intro h l hl
    have hstep : splitLF (c :: rest) = consFirst c (splitLF rest) := by
      simp [splitLF, h1]
    rw [hstep] at hl
    cases hsp : splitLF rest with
    | nil => exact absurd hsp (splitLF_ne_nil rest)
    | cons l0 ls0 =>
      rw [hsp, consFirst] at hl
      rcases List.mem_cons.mp hl with rfl | hl
      · by_cases hc : c = ','
        · subst hc
          cases rest with
          | nil =>
            rw [show splitLF [] = [[]] from rfl] at hsp
            injection hsp with e1 e2
            rw [← e1]
            rfl
          | cons d r =>
            rw [commaOK, if_pos rfl] at h
            obtain ⟨hcond, hrest⟩ := Bool.and_eq_true_iff.mp h
            by_cases hd : d = '\n'
            · subst hd
              rw [show splitLF ('\n' :: r) = [] :: splitLF r from rfl] at hsp
              injection hsp with e1 e2
              rw [← e1]
              rfl
            · have hstep2 : splitLF (d :: r) = consFirst d (splitLF r) := by
                simp [splitLF, hd]
              cases hsp2 : splitLF r with
              | nil => exact absurd hsp2 (splitLF_ne_nil r)
              | cons m ms =>
                rw [hstep2, hsp2, consFirst] at hsp
                injection hsp with e1 e2
                have hl0 : commaOK l0 = true := by
                  refine ih hrest l0 ?_
                  rw [hstep2, hsp2, consFirst, ← e1]
                  exact List.mem_cons_self _ _
                rw [← e1] at hl0 ⊢
                rw [commaOK, if_pos rfl]
                exact Bool.and_eq_true_iff.mpr ⟨hcond, hl0⟩
        · refine commaOK_cons_of_ne c l0 hc ?_
          exact ih (commaOK_cons h) l0 (by rw [hsp]; exact List.mem_cons_self _ _)
      · exact ih (commaOK_cons h) l (by rw [hsp]; exact List.mem_cons_of_mem _ hl)

/-- Helper: prepending a newline preserves `commaOK`. -/
theorem commaOK_lf_cons (X : List Char) (h : commaOK X = true) :
    commaOK ('\n' :: X) = true :=
  commaOK_cons_of_ne _ _ (by decide) h

/-- Helper: joining two `commaOK` pieces with a newline preserves `commaOK`
(a line-final comma becomes a comma followed by a newline). -/
theorem commaOK_append_lf : ∀ l X : List Char, commaOK l = true → commaOK X = true →
    commaOK (l ++ '\n' :: X) = true := by
  intro l
  induction l with
  | nil =>
    intro X h1 h2
    exact commaOK_lf_cons X h2
  | cons a l' ih =>
    intro X h1 h2
    cases l' with
    | nil =>
      by_cases ha : a = ','
      · subst ha
        rw [List.cons_append, List.nil_append, commaOK, if_pos rfl]
        exact Bool.and_eq_true_iff.mpr ⟨by decide, commaOK_lf_cons X h2⟩
      · rw [List.cons_append, List.nil_append]
        exact commaOK_cons_of_ne a _ ha (commaOK_lf_cons X h2)
    | cons b l'' =>
      rw [List.cons_append, List.cons_append, commaOK]
      rw [commaOK] at h1
      by_cases ha : a = ','
      · rw [if_pos ha] at h1 ⊢
        obtain ⟨hc, hrest⟩ := Bool.and_eq_true_iff.mp h1
        exact Bool.and_eq_true_iff.mpr ⟨hc, ih X hrest h2⟩
      · rw [if_neg ha] at h1 ⊢
        exact ih X h1 h2

/-- Helper: joining `commaOK` lines with newlines yields a `commaOK` text. -/
theorem commaOK_joinLF : ∀ lines : List (List Char),
    (∀ l ∈ lines, commaOK l = true) → commaOK (joinLF lines) = true := by
  intro lines
  induction lines with
  | nil => intro _; rfl
  | cons l ls ih =>
    intro h
    cases ls with
    | nil => exact h l (List.mem_cons_self _ _)
    | cons l2 ls2 =>
      rw [show joinLF (l :: l2 :: ls2) = l ++ '\n' :: joinLF (l2 :: ls2) from rfl]
      exact commaOK_append_lf l _ (h l (List.mem_cons_self _ _))
        (ih fun x hx => h x (List.mem_cons_of_mem _ hx))

/-- Helper: `step4F` keeps the head character of its input. -/
theorem step4F_cons_head : ∀ (f : Nat) (c : Char) (rest : List Char),
    ∃ t, step4F f (c :: rest) = c :: t := by
  intro f c rest
  match f with
  | 0 => exact ⟨rest, rfl⟩
  | f + 1 =>
    by_cases hc : c = ','
    · subst hc
      by_cases hw : (rest.takeWhile isJsWs).isEmpty = true
      · exact ⟨step4F f rest, by simp [step4F, hw]⟩
      · have hw' : (rest.takeWhile isJsWs).isEmpty = false := by simpa using hw
        exact ⟨'\n' :: ' ' :: ' ' :: step4F f (rest.drop (rest.takeWhile isJsWs).length),
          by simp [step4F, hw']⟩
    · exact ⟨step4F f rest, by simp [step4F, hc]⟩

/-- Helper: the comma-rewrite pass establishes the comma law on any input,
given enough fuel. -/
theorem commaOK_step4F : ∀ (f : Nat) (s : List Char), s.length ≤ f →
    commaOK (step4F f s) = true := by
  intro f
  induction f with
  | zero =>
    intro s hs
    have : s = [] := List.length_eq_zero.mp (Nat.le_zero.mp hs)
    subst this
    rfl
  | succ f ih =>
    intro s hs
    match s with
    | [] => rfl
    | c :: rest =>
      have hlen : rest.length ≤ f := by
        simp only [List.length_cons] at hs
        omega
      by_cases hc : c = ','
      · subst hc
        by_cases hw : (rest.takeWhile isJsWs).isEmpty = true
        · have hstep : step4F (f + 1) (',' :: rest) = ',' :: step4F f rest := by
            simp [step4F, hw]
          rw [hstep]
          cases rest with
          | nil =>
            have he : step4F f [] = [] := by cases f <;> rfl
            rw [he]
            rfl
          | cons d dr =>
            have hd : isJsWs d = false := by
              by_contra hcon
              have hd' : isJsWs d = true := by simpa using hcon
              simp [List.takeWhile_cons, hd'] at hw
            obtain ⟨t', ht'⟩ := step4F_cons_head f d dr
            rw [ht', commaOK, if_pos rfl]
            refine Bool.and_eq_true_iff.mpr ⟨by simp [hd], ?_⟩
            rw [← ht']
            exact ih (d :: dr) hlen
        · have hw' : (rest.takeWhile isJsWs).isEmpty = false := by simpa using hw
          have hstep : step4F (f + 1) (',' :: rest) =
              ',' :: '\n' :: ' ' :: ' ' ::
                step4F f (rest.drop (rest.takeWhile isJsWs).length) := by
            simp [step4F, hw']
          rw [hstep]
          have hX : commaOK (step4F f (rest.drop (rest.takeWhile isJsWs).length)) = true := by
            refine ih _ ?_
            rw [List.length_drop]
            omega
          rw [commaOK, if_pos rfl]
          refine Bool.and_eq_true_iff.mpr ⟨by decide, ?_⟩
          exact commaOK_lf_cons _ (commaOK_cons_of_ne ' ' _ (by decide)
            (commaOK_cons_of_ne ' ' _ (by decide) hX))
      · have hstep : step4F (f + 1) (c :: rest) = c :: step4F f rest := by
          simp [step4F, hc]
        rw [hstep]
        exact commaOK_cons_of_ne c _ hc (ih rest hlen)

/-- Helper: `step5F` keeps the head character of its input. -/
theorem step5F_cons_head : ∀ (f : Nat) (c : Char) (rest : List Char),
    ∃ t, step5F f (c :: rest) = c :: t := by
  intro f c rest
  match f with
  | 0 => exact ⟨rest, rfl⟩
  | f + 1 =>
    by_cases hc : c = '\n'
    · subst hc
      cases hj : lastLFIdx (rest.takeWhile isJsWs) with
      | none => exact ⟨step5F f rest, by simp [step5F, hj]⟩
      | some j =>
        by_cases hj1 : 1 ≤ j
        · exact ⟨step5F f (rest.drop (j + 1)), by simp [step5F, hj, hj1]⟩
        · exact ⟨step5F f rest, by simp [step5F, hj, hj1]⟩
    · exact ⟨step5F f rest, by simp [step5F, hc]⟩

/-- Helper: the blank-line collapse pass preserves the comma law. -/
theorem commaOK_step5F : ∀ (f : Nat) (s : List Char), s.length ≤ f →
    commaOK s = true → commaOK (step5F f s) = true := by
  intro f
  induction f with
  | zero =>
    intro s hs h
    have : s = [] := List.length_eq_zero.mp (Nat.le_zero.mp hs)
    subst this
    rfl
  | succ f ih =>
    intro s hs h
    match s with
    | [] => rfl
    | c :: rest =>
      have hlen : rest.length ≤ f := by
        simp only [List.length_cons] at hs
        omega
      by_cases hc : c = '\n'
      · subst hc
        cases hj : lastLFIdx (rest.takeWhile isJsWs) with
        | none =>
          have hstep : step5F (f + 1) ('\n' :: rest) = '\n' :: step5F f rest := by
            simp [step5F, hj]
          rw [hstep]
          exact commaOK_lf_cons _ (ih rest hlen (commaOK_cons h))
        | some j =>
          by_cases hj1 : 1 ≤ j
          · have hstep : step5F (f + 1) ('\n' :: rest) =
                '\n' :: step5F f (rest.drop (j + 1)) := by
              simp [step5F, hj, hj1]
            rw [hstep]
            refine commaOK_lf_cons _ (ih _ ?_ ?_)
            · rw [List.length_drop]
              omega
            · exact commaOK_drop rest (j + 1) (commaOK_cons h)
          · have hstep : step5F (f + 1) ('\n' :: rest) = '\n' :: step5F f rest := by
              simp [step5F, hj, hj1]
            rw [hstep]
            exact commaOK_lf_cons _ (ih rest hlen (commaOK_cons h))
      · have hstep : step5F (f + 1) (c :: rest) = c :: step5F f rest := by
          simp [step5F, hc]
        rw [hstep]
        by_cases hcm : c = ','
        · subst hcm
          cases rest with
          | nil =>
            have he : step5F f [] = [] := by cases f <;> rfl
            rw [he]
            rfl
          | cons d dr =>
            rw [commaOK, if_pos rfl] at h
            obtain ⟨hcond, hrest⟩ := Bool.and_eq_true_iff.mp h
            obtain ⟨t', ht'⟩ := step5F_cons_head f d dr
            rw [ht', commaOK, if_pos rfl]
            refine Bool.and_eq_true_iff.mpr ⟨hcond, ?_⟩
            rw [← ht']
            exact ih (d :: dr) hlen hrest
        · exact commaOK_cons_of_ne c _ hcm (ih rest hlen (commaOK_cons h))

/-- Helper: the final split-trim-filter-join pass preserves the comma law. -/
theorem commaOK_step6 (s : List Char) (h : commaOK s = true) :
    commaOK (joinLF (((splitLF s).map trimL).filter (fun l => !l.isEmpty))) = true := by
  apply commaOK_joinLF
  intro l hl
  rw [List.mem_filter] at hl
  obtain ⟨hl, -⟩ := hl
  rw [List.mem_map] at hl
  obtain ⟨l0, hl0, rfl⟩ := hl
  exact commaOK_trimL _ (commaOK_splitLF s h l0 hl0)

/-- C9 (amended): on every compact input (at most 2 lines, so the rewrites
run), the preprocessor inserts a newline after every comma that is followed
by whitespace; consequently, in the output every comma is immediately
followed by a newline or by a non-whitespace character, or ends the
output. -/
theorem preprocessSQL_comma_spec (sql : List Char)
    (h : (splitLF sql).length ≤ 2) :
    commaOK (preprocessSQL sql) = true := by
  unfold preprocessSQL
  rw [if_neg (by omega)]
  exact commaOK_step6 _ (commaOK_step5F _ _ le_rfl (commaOK_step4F _ _ le_rfl))

/-- C9 witness: the single-line input `"a, b"` satisfies the comma law after
preprocessing. -/
theorem preprocessSQL_comma_spec_witness :
    (splitLF ("a, b".toList)).length ≤ 2 ∧
    commaOK (preprocessSQL ("a, b".toList)) = true :=
  ⟨by decide, preprocessSQL_comma_spec _ (by decide)⟩

/-- C9 counterexample: the compact input `"SELECT a,b FROM t"` (one line)
keeps its comma directly in front of `b`: the output contains a comma that
is not followed by a line break, refuting the claim that a newline is
inserted after every comma. -/
theorem preprocessSQL_comma_claim_cex :
    (splitLF ("SELECT a,b FROM t".toList)).length ≤ 2 ∧
    preprocessSQL ("SELECT a,b FROM t".toList) = "SELECT a,b\nFROM t".toList ∧
    commaAlwaysLF ("SELECT a,b\nFROM t".toList) = false := by
  refine ⟨by decide, by decide, by decide⟩
